import Mathlib

/-!
Verification of the awwwards-jobs-api scraping pipeline.

This file gives a shallow embedding of the pure core of the repository
(app/scraper.py and the sorting / error-surfacing logic of app/routes.py)
and proves, or refutes, the frozen claims about it.

Modelling conventions:
* Python strings are Lean `String` / `List Char`; character classes
  (whitespace, digits) are modelled over the ASCII range that the
  scraped content and the regexes of the source use.
* Dynamic JSON-LD dictionaries are modelled by the projections the code
  reads (`LdJob`); an absent key is `none`.
* HTML documents are modelled by the data BeautifulSoup hands the code:
  the ordered list of anchor hrefs for the listing page, and the text of
  the relevant elements for the detail page.  BeautifulSoup's
  `get_text` on a description is an oracle parameter `htmlToText`.
* Python truthiness of optional strings (`a or b`, `x or ""`) is made
  explicit (`pyOrS`, `pyGetD`).
* `asyncio.gather(..., return_exceptions=True)` returns the results in
  the order of its argument list, so the per-job fetch of
  `list_with_details` is a fetch function `String → Except PyError
  JobRecord` mapped over the job urls.
* `list.sort` in Python is a stable sort; it is modelled by
  `List.insertionSort`, which is also stable, with the corresponding
  (reversed, for `reverse=True`) relation — any two stable sorts with
  respect to the same preorder compute the same list.
-/

/-! ### Character level helpers (Python regex classes, `str.strip`) -/

/-- Python's whitespace class over ASCII: the characters matched by the
regex class used in `_clean_text` and by `str.strip()`. -/
def isWs (c : Char) : Bool :=
  c = ' ' || c = '\t' || c = '\n' || c = '\r' || c = '\x0b' || c = '\x0c'

/-- Does the pattern (first argument) occur at the head of the second list? -/
def startsWithL : List Char → List Char → Bool
  | [], _ => true
  | _ :: _, [] => false
  | p :: ps, c :: cs => p = c && startsWithL ps cs

/-- Does the pattern occur anywhere in the list (Python substring search)? -/
def containsSub (pat : List Char) : List Char → Bool
  | [] => startsWithL pat []
  | c :: cs => startsWithL pat (c :: cs) || containsSub pat cs

/-- Python `str.split(sep)` for a one-character separator: always returns a
non-empty list of (possibly empty) chunks. -/
def splitChar (sep : Char) : List Char → List (List Char)
  | [] => [[]]
  | c :: cs =>
    match splitChar sep cs with
    | [] => [[]]
    | g :: gs => if c = sep then [] :: g :: gs else (c :: g) :: gs

/-- Drop trailing whitespace (the right half of Python `str.strip()`),
written structurally so that it evaluates by kernel reduction. -/
def dropEndWs : List Char → List Char
  | [] => []
  | c :: cs =>
    match dropEndWs cs with
    | [] => if isWs c then [] else [c]
    | x :: xs => c :: x :: xs

/-- Python `str.strip()` on a character list. -/
def pyStripL (cs : List Char) : List Char :=
  dropEndWs (cs.dropWhile isWs)

/-- Python `str.strip()`. -/
def pyStrip (s : String) : String :=
  String.mk (pyStripL s.data)

/-- One pass of the substitution in `_clean_text`
(`re.sub(r"\s+", " ", x)`): every maximal whitespace run becomes one
space.  The flag records whether we are inside a run whose single space
has already been emitted. -/
def collapseGo : Bool → List Char → List Char
  | _, [] => []
  | b, c :: cs =>
    if isWs c then
      if b then collapseGo true cs else ' ' :: collapseGo true cs
    else
      c :: collapseGo false cs

/-- Python `re.sub(r"\s+", " ", s)`. -/
def collapseWs (cs : List Char) : List Char :=
  collapseGo false cs

/-- Python truthiness-based `a or b` on optional strings: `None` and the
empty string are falsy. -/
def pyOrS (a b : Option String) : Option String :=
  match a with
  | some s => if s = "" then b else some s
  | none => b

/-- Python `x or d` producing a string (used for `title or ""`). -/
def pyGetD (a : Option String) (d : String) : String :=
  match a with
  | some s => if s = "" then d else s
  | none => d

/-! ### `_clean_text` and `_norm_date` (app/scraper.py lines 131-143) -/

/-- The source's `_clean_text`: `re.sub(r"\s+", " ", str(x)).strip() or None`. -/
def cleanText : Option String → Option String
  | none => none
  | some s =>
    let t := String.mk (pyStripL (collapseWs s.data))
    if t = "" then none else some t

/-- Does the string start with the shape `\d{4}-\d{2}-\d{2}`
(the `re.match` in `_norm_date`)? -/
def matchesLeadingDate : List Char → Bool
  | y1 :: y2 :: y3 :: y4 :: h1 :: m1 :: m2 :: h2 :: d1 :: d2 :: _ =>
    y1.isDigit && y2.isDigit && y3.isDigit && y4.isDigit && h1 = '-' &&
    m1.isDigit && m2.isDigit && h2 = '-' && d1.isDigit && d2.isDigit
  | _ => false

/-- The source's `_norm_date`: `None`/empty stays `None`, a leading `YYYY-MM-DD` is
truncated to, anything else passes through unchanged. -/
def normDate : Option String → Option String
  | none => none
  | some s =>
    if s = "" then none
    else if matchesLeadingDate s.data then some (String.mk (s.data.take 10))
    else some s

/-! ### `_full_url` and `_slug_from_url` (app/scraper.py lines 38-48) -/

/-- The module constant `JOBS_BASE`. -/
def jobsBase : String := "https://www.awwwards.com/jobs/"

/-- The source's `_full_url`: prefix-based resolution of an href. -/
def fullUrl (href : String) : String :=
  if startsWithL "http".data href.data then href
  else if startsWithL "/".data href.data then "https://www.awwwards.com" ++ href
  else jobsBase ++ href

/-- Characters accepted by the `[^/?#]` class of `_slug_from_url`. -/
def allowedSeg (c : Char) : Bool :=
  !(c = '/' || c = '?' || c = '#')

/-- Backtracking matcher for `([^/?#]+)\.html` anchored at the head of the
list, returning the (greedy, i.e. longest) group.  `some t` means the
regex engine, having just consumed `/jobs/`, captures `t` and then the
literal `.html`. -/
def segTail : List Char → Option (List Char)
  | [] => none
  | c :: cs =>
    if allowedSeg c then
      match segTail cs with
      | some t => some (c :: t)
      | none => if startsWithL ".html".data cs then some [c] else none
    else none

/-- Leftmost match of `re.search(r"/jobs/([^/?#]+)\.html", url)`:
scan for a position where `/jobs/` occurs and the group matcher
succeeds after it. -/
def jobsMatch : List Char → Option (List Char)
  | [] => none
  | c :: rest =>
    if startsWithL "/jobs/".data (c :: rest) then
      match segTail ((c :: rest).drop 6) with
      | some t => some t
      | none => jobsMatch rest
    else jobsMatch rest

/-- Python `url.rstrip("/")`. -/
def rstripSlash (cs : List Char) : List Char :=
  (cs.reverse.dropWhile (fun c => c = '/')).reverse

/-- The source's `_slug_from_url`: regex group if the pattern matches, otherwise
`url.rstrip("/").split("/")[-1]`. -/
def slugFromUrl (url : String) : String :=
  match jobsMatch url.data with
  | some t => String.mk t
  | none => String.mk ((splitChar '/' (rstripSlash url.data)).getLastD [])

/-! ### Listing-page job-url extraction (app/scraper.py lines 82-98) -/

/-- End-of-string acceptance for Python `$` (which also matches just
before one final newline). -/
def atDollar : List Char → Bool
  | [] => true
  | [c] => c = '\n'
  | _ :: _ :: _ => false

/-- Acceptance of `.*$` after the optional `?` of
`r"/jobs/[^/]+\.html(\?.*)?$"`: any newline-free text, optionally
followed by one final newline. -/
def dotStarDollar : List Char → Bool
  | [] => true
  | c :: cs =>
    if c = '\n' then cs = []
    else dotStarDollar cs

/-- Acceptance of `(\?.*)?$` at the given position. -/
def queryTail : List Char → Bool
  | [] => true
  | c :: cs => if c = '?' then dotStarDollar cs else atDollar (c :: cs)

/-- Matcher for `[^/]+\.html(\?.*)?$` anchored at the head of the list
(the part of the listing regex after `/jobs/`). -/
def seg1 : List Char → Bool
  | [] => false
  | c :: cs =>
    c ≠ '/' &&
      ((startsWithL ".html".data cs && queryTail (cs.drop 5)) || seg1 cs)

/-- Python `re.search(r"/jobs/[^/]+\.html(\?.*)?$", href)` as a Boolean. -/
def hasJobHtml : List Char → Bool
  | [] => false
  | c :: rest =>
    (startsWithL "/jobs/".data (c :: rest) && seg1 ((c :: rest).drop 6)) ||
      hasJobHtml rest

/-- The url occurrence sequence built by the loop of
`_extract_job_urls_from_list` before de-duplication: qualifying hrefs in
document order, resolved by `_full_url`. -/
def occurrencesOf (hrefs : List String) : List String :=
  (hrefs.filter (fun h => hasJobHtml h.data)).map fullUrl

/-- The `seen`/`uniq` de-duplication loop of `_extract_job_urls_from_list`
(`seen` is the membership structure, `uniq` the output being built). -/
def dedupeGo : List String → List String → List String
  | [], _ => []
  | u :: us, seen =>
    if u ∈ seen then dedupeGo us seen else u :: dedupeGo us (u :: seen)

/-- The source's `_extract_job_urls_from_list`, with the anchor hrefs of the page (in
document order) as input. -/
def extractJobUrls (hrefs : List String) : List String :=
  dedupeGo (occurrencesOf hrefs) []

/-- Spec-side rendering of "each URL appears at the position of its first
occurrence": keep the first occurrence, delete the later ones. -/
def keepFirst : List String → List String
  | [] => []
  | u :: us => u :: keepFirst (us.filter (fun v => decide (v ≠ u)))
termination_by l => l.length
decreasing_by
  simp only [List.length_cons]
  exact Nat.lt_succ_of_le (List.length_filter_le _ _)

/-! ### Pagination metadata (app/scraper.py lines 60-67) -/

/-- Digits to a number, Python `int` on a digit string. -/
def natOfDigits (l : List Char) : Nat :=
  l.foldl (fun n c => n * 10 + (c.toNat - '0'.toNat)) 0

/-- Leftmost match of `re.search(r"[?&]page=(\d+)", href)` with the
greedy digit group read as a number. -/
def pageSearch : List Char → Option Nat
  | [] => none
  | c :: cs =>
    if (c = '?' || c = '&') && startsWithL "page=".data cs &&
        (match (cs.drop 5).head? with
         | some d => d.isDigit
         | none => false) then
      some (natOfDigits ((cs.drop 5).takeWhile Char.isDigit))
    else pageSearch cs

/-- The `has_next`/`next_page` computation of `list_page`.  The input is
what BeautifulSoup produced: `none` when no Next/rel-next anchor exists,
`some none` for an anchor without an href attribute, `some (some h)` for
an anchor with href `h` (note `next_a.get("href")` is falsy for the
empty string). -/
def listPageNext (nextA : Option (Option String)) (page : Nat) :
    Bool × Option Nat :=
  match nextA with
  | some (some h) =>
    if h = "" then (false, none)
    else (true, some ((pageSearch h.data).getD (page + 1)))
  | _ => (false, none)

/-! ### The job record (the `item` dict of `job_details`, app/models.py) -/

/-- The detail record assembled by `job_details` (field names follow the
`item` dict / pydantic model). -/
structure JobRecord where
  id : String
  title : String
  company_name : Option String
  company_website : Option String
  category : Option String
  country : Option String
  employment_type : Option String
  location_label : Option String
  remote : Option Bool
  awwwards_url : String
  apply_url : Option String
  posted_at : Option String
  posted_at_relative : Option String
  description_text : Option String
  description_html : Option String
deriving DecidableEq, Repr

/-- The projections of the JSON-LD `JobPosting` dictionary that
`job_details` reads.  An absent key is `none`; `locCountry`, `locCity`
and `locName` are the address fields of the effective `jobLocation`
dict (all `none` when there is no such dict);
`applicantLocationRequirements` is the truthiness of that key. -/
structure LdJob where
  title : Option String
  orgName : Option String
  orgSameAs : Option String
  orgUrl : Option String
  applicationContact : Option String
  url : Option String
  locCountry : Option String
  locCity : Option String
  locName : Option String
  applicantLocationRequirements : Bool
  employmentType : Option String
  occupationalCategory : Option String
  datePosted : Option String
  description : Option String
deriving Repr

/-- The HTML fallback data of the detail page: text of the first `h1`,
href attribute of the first More info/Apply anchor (`none` when there is
no anchor or no href attribute), and `get_text(separator=" ")` of the
`article`/content fallback element. -/
structure DetailPage where
  h1Text : Option String
  moreInfoHref : Option String
  articleText : Option String
deriving Repr

/-- Substring test of the remote heuristic
(`"remote" in location_label.lower()`, guarded by truthiness). -/
def llRemoteSub : Option String → Bool
  | some l => l ≠ "" && containsSub "remote".data (l.data.map Char.toLower)
  | none => false

/-- Equality test of the remote heuristic
(`location_label.upper() == "REMOTE"`, guarded by truthiness). -/
def llRemoteEq : Option String → Bool
  | some l => l ≠ "" && String.mk (l.data.map Char.toUpper) = "REMOTE"
  | none => false

/-- The `remote` computation of `job_details` (lines 166-181): starts as
`None`, two independent `if`s may set it to `True`. -/
def remoteOf (alr : Bool) (ll : Option String) : Option Bool :=
  let r0 : Option Bool := if alr || llRemoteSub ll then some true else none
  if llRemoteEq ll then some true else r0

/-- The fallback branch for `description_text`: text of the
`article`/content element, stripped. -/
def articleFallback (pg : DetailPage) : Option String :=
  match pg.articleText with
  | some a => some (pyStrip a)
  | none => none

/-- The source's `job_details` (app/scraper.py lines 145-218), given the structured
data projections, the HTML fallback data, the BeautifulSoup
`get_text(separator=" ")` oracle for the description markup, and the job
url. -/
def jobDetails (htmlToText : String → String) (ld : LdJob) (pg : DetailPage)
    (jobUrl : String) : JobRecord :=
  let title := pyGetD (pyOrS (cleanText ld.title) (cleanText pg.h1Text)) ""
  let company_name := cleanText ld.orgName
  let company_website := cleanText (pyOrS ld.orgSameAs ld.orgUrl)
  let applyUrl0 := cleanText (pyOrS ld.orgUrl (pyOrS ld.applicationContact ld.url))
  let apply_url :=
    match applyUrl0 with
    | some a => some a
    | none =>
      match pg.moreInfoHref with
      | some h => if h = "" then none else some (fullUrl h)
      | none => none
  let country := cleanText ld.locCountry
  let city := cleanText ld.locCity
  let location_label := pyOrS city (cleanText ld.locName)
  let remoteV := remoteOf ld.applicantLocationRequirements location_label
  let employment_type := cleanText ld.employmentType
  let category := cleanText ld.occupationalCategory
  let posted_at := normDate (cleanText ld.datePosted)
  let description_html : Option String :=
    match ld.description with
    | none => none
    | some s => if s = "" then some s else some (pyStrip s)
  let description_text :=
    match description_html with
    | some s => if s = "" then articleFallback pg else some (pyStrip (htmlToText s))
    | none => articleFallback pg
  { id := slugFromUrl jobUrl
    title := title
    company_name := company_name
    company_website := company_website
    category := category
    country := country
    employment_type := employment_type
    location_label := location_label
    remote := remoteV
    awwwards_url := jobUrl
    apply_url := apply_url
    posted_at := posted_at
    posted_at_relative := none
    description_text := description_text
    description_html := description_html }

/-! ### Fetching with retries and error surfacing
(app/scraper.py lines 15-36, app/routes.py lines 57-60) -/

/-- The exceptions that matter to the routing layer: `httpx.HTTPError`
(what `_get_text` re-raises after exhausting retries), the repository's
own `ScrapeError`, and anything else. -/
inductive PyError
  | httpError
  | scrapeError
  | otherError
deriving DecidableEq, Repr

/-- Outcome of one HTTP attempt: a body, or an `httpx.HTTPError`. -/
inductive FetchOutcome
  | ok (body : String)
  | httpFail
deriving DecidableEq, Repr

/-- The tenacity retry loop around `_get_text`
(`stop_after_attempt(3)`, `retry_if_exception_type(httpx.HTTPError)`,
`reraise=True`): run attempts while fuel remains, re-raise the
`httpx.HTTPError` after the last one.  Returns the result together with
the number of attempts performed. -/
def retryCall (f : Nat → FetchOutcome) : Nat → Nat → Except PyError String × Nat
  | _, 0 => (Except.error PyError.httpError, 0)
  | i, fuel + 1 =>
    match f i with
    | FetchOutcome.ok b => (Except.ok b, 1)
    | FetchOutcome.httpFail =>
      if fuel = 0 then (Except.error PyError.httpError, 1)
      else
        let r := retryCall f (i + 1) fuel
        (r.1, r.2 + 1)

/-- The source's `_get_text` on a given attempt-outcome sequence: at most 3 attempts. -/
def getText (f : Nat → FetchOutcome) : Except PyError String × Nat :=
  retryCall f 0 3

/-- The error surfacing of `get_jobs` (app/routes.py lines 57-60):
`ScrapeError` becomes 503/source_unreachable, every other exception
becomes 500/scrape_failed. -/
def surfaceError : PyError → Nat × String
  | PyError.scrapeError => (503, "source_unreachable")
  | _ => (500, "scrape_failed")

/-- The listing-page fetch of `get_jobs` seen through the route's
exception handlers. -/
def getJobsListingResult (f : Nat → FetchOutcome) : Except (Nat × String) String :=
  match (getText f).1 with
  | Except.ok b => Except.ok b
  | Except.error e => Except.error (surfaceError e)

/-! ### `list_with_details` (app/scraper.py lines 220-235) -/

/-- The result-collection loop of `list_with_details`: skip entries that
are exceptions, keep the records. -/
def collectOk : List (Except PyError JobRecord) → List JobRecord
  | [] => []
  | Except.error _ :: rest => collectOk rest
  | Except.ok r :: rest => r :: collectOk rest

/-- The source's `list_with_details` after the listing page produced `urls`:
`asyncio.gather` with `return_exceptions=True` yields per-url results in
url order; the loop drops the failures. -/
def listWithDetailsData (urls : List String)
    (g : String → Except PyError JobRecord) : List JobRecord :=
  collectOk (urls.map g)

/-! ### Sorting in the route (app/routes.py lines 41-45) -/

/-- The sort key: `x.get("posted_at") or ""`. -/
def postedKey (r : JobRecord) : String :=
  (r.posted_at).getD ""

/-- Python `sort.lstrip("-")`. -/
def lstripDash (s : String) : String :=
  String.mk (s.data.dropWhile (fun c => c = '-'))

/-- Python `sort.startswith("-")`. -/
def startsDash (s : String) : Bool :=
  match s.data with
  | '-' :: _ => true
  | _ => false

/-- Python's string comparison (`a <= b`): lexicographic by code point,
a proper prefix comparing smaller. -/
def listLe : List Char → List Char → Bool
  | [], _ => true
  | _ :: _, [] => false
  | a :: as, b :: bs => if a = b then listLe as bs else decide (a < b)

/-- Python `a <= b` on strings. -/
def strLeB (a b : String) : Bool :=
  listLe a.data b.data

/-- The comparison `data.sort` uses with `reverse=True`: later keys are
allowed to be at most the earlier ones (descending). -/
def descRel (a b : JobRecord) : Prop :=
  strLeB (postedKey b) (postedKey a) = true

/-- The comparison `data.sort` uses with `reverse=False` (ascending). -/
def ascRel (a b : JobRecord) : Prop :=
  strLeB (postedKey a) (postedKey b) = true

instance : DecidableRel descRel := fun _ _ => instDecidableEqBool _ _

instance : DecidableRel ascRel := fun _ _ => instDecidableEqBool _ _

/-- The sort step of `get_jobs`: `data.sort(key=lambda x: x.get("posted_at")
or "", reverse=sort.startswith("-"))` guarded by `if sort and data` and
`key == "posted_at"`.  Python's stable sort is modelled by
`List.insertionSort` with the matching (for `reverse=True`: reversed)
relation. -/
def applySort (sort : Option String) (data : List JobRecord) : List JobRecord :=
  match sort with
  | none => data
  | some s =>
    if s = "" then data
    else if data = [] then data
    else if lstripDash s = "posted_at" then
      if startsDash s then List.insertionSort descRel data
      else List.insertionSort ascRel data
    else data

/-! ### Spec-side definitions (used to state claims, not taken from the
source) -/

/-- Tail scanner for `specHasScheme`: scheme characters until a colon. -/
def specSchemeRest : List Char → Bool
  | [] => false
  | c :: cs =>
    if c = ':' then true
    else (c.isAlphanum || c = '+' || c = '-' || c = '.') && specSchemeRest cs

/-- Spec-side ("already has a scheme"): an RFC 3986 scheme followed by a
colon. -/
def specHasScheme (s : String) : Bool :=
  match s.data with
  | [] => false
  | c :: rest => c.isAlpha && specSchemeRest rest

/-- No two adjacent whitespace characters. -/
def noWsRunB : List Char → Bool
  | [] => true
  | [_] => true
  | a :: b :: r => !(isWs a && isWs b) && noWsRunB (b :: r)

/-- Neither end is whitespace. -/
def noEdgeWsB (cs : List Char) : Bool :=
  (match cs.head? with
   | some c => !isWs c
   | none => true) &&
  (match cs.getLast? with
   | some c => !isWs c
   | none => true)

/-- The cleaning contract of the spec for an optional text field: a
present value is non-empty, has no whitespace run, and is trimmed. -/
def cleanO (o : Option String) : Prop :=
  ∀ s, o = some s → s ≠ "" ∧ noWsRunB s.data = true ∧ noEdgeWsB s.data = true

/-- All characters are whitespace. -/
def allWsB (cs : List Char) : Bool :=
  cs.all isWs

/-- The successful part of a per-job result. -/
def okPart (r : Except PyError JobRecord) : Option JobRecord :=
  match r with
  | Except.ok v => some v
  | Except.error _ => none

/-- A fixed record for concrete scenarios: everything absent except the
identifying url. -/
def sampleRecord (u : String) : JobRecord :=
  { id := u
    title := ""
    company_name := none
    company_website := none
    category := none
    country := none
    employment_type := none
    location_label := none
    remote := none
    awwwards_url := u
    apply_url := none
    posted_at := none
    posted_at_relative := none
    description_text := none
    description_html := none }

/-- A record whose posted date is the given value, for the sorting
scenario. -/
def datedRecord (d : Option String) : JobRecord :=
  { sampleRecord "u" with posted_at := d }

/-- The concrete fetcher of the three-url scenario: the second url fails
with the exhausted-retries error, the others succeed. -/
def sampleFetch (u : String) : Except PyError JobRecord :=
  if u = "u2" then Except.error PyError.httpError else Except.ok (sampleRecord u)

/-- Structured data with every key absent. -/
def emptyLd : LdJob :=
  { title := none
    orgName := none
    orgSameAs := none
    orgUrl := none
    applicationContact := none
    url := none
    locCountry := none
    locCity := none
    locName := none
    applicantLocationRequirements := false
    employmentType := none
    occupationalCategory := none
    datePosted := none
    description := none }

/-- A detail page with no usable fallback elements. -/
def emptyPage : DetailPage :=
  { h1Text := none, moreInfoHref := none, articleText := none }

/-! ### Helper lemmas -/

lemma cleanText_not_empty (x : Option String) : cleanText x ≠ some "" := by
  cases x with
  | none => simp [cleanText]
  | some s =>
    unfold cleanText
    by_cases h : String.mk (pyStripL (collapseWs s.data)) = "" <;> simp [h]

lemma collectOk_eq_filterMap (rs : List (Except PyError JobRecord)) :
    collectOk rs = rs.filterMap okPart := by
  induction rs with
  | nil => rfl
  | cons r rest ih =>
    cases r with
    | ok v => simp [collectOk, okPart, List.filterMap_cons, ih]
    | error e => simp [collectOk, okPart, List.filterMap_cons, ih]

lemma remoteOf_spec (alr : Bool) (ll : Option String) :
    (remoteOf alr ll = some true ∨ remoteOf alr ll = none) ∧
      (remoteOf alr ll = some true ↔
        (alr = true ∨ llRemoteSub ll = true ∨ llRemoteEq ll = true)) ∧
      remoteOf alr ll ≠ some false := by
  unfold remoteOf
  by_cases h1 : llRemoteEq ll = true <;>
    by_cases h2 : alr = true <;>
    by_cases h3 : llRemoteSub ll = true <;>
      simp [h1, h2, h3]

lemma segTail_cons (c : Char) (cs : List Char) :
    segTail (c :: cs) =
      (if allowedSeg c then
        (match segTail cs with
         | some t => some (c :: t)
         | none => if startsWithL ".html".data cs then some [c] else none)
      else none) := rfl

lemma jobsMatch_cons (c : Char) (rest : List Char) :
    jobsMatch (c :: rest) =
      (if startsWithL "/jobs/".data (c :: rest) then
        (match segTail ((c :: rest).drop 6) with
         | some t => some t
         | none => jobsMatch rest)
      else jobsMatch rest) := rfl

lemma containsSub_cons (pat : List Char) (c : Char) (cs : List Char) :
    containsSub pat (c :: cs) =
      (startsWithL pat (c :: cs) || containsSub pat cs) := rfl

lemma segTail_html : segTail ".html".data = none := by decide

lemma startsWithL_self : ∀ p l : List Char, startsWithL p (p ++ l) = true := by
  intro p
  induction p with
  | nil => intro l; rfl
  | cons a ps ih => intro l; simp [startsWithL, ih l]

lemma segTail_seg : ∀ seg : List Char, seg ≠ [] →
    (∀ c ∈ seg, allowedSeg c = true ∧ c ≠ '.') →
    segTail (seg ++ ".html".data) = some seg := by
  intro seg
  induction seg with
  | nil => intro h _; exact absurd rfl h
  | cons c cs ih =>
    intro _ hall
    have hc := (hall c (List.mem_cons_self _ _)).1
    cases cs with
    | nil =>
      have h5 : startsWithL ".html".data ".html".data = true := by decide
      show segTail (c :: ([] ++ ".html".data)) = some [c]
      rw [List.nil_append, segTail_cons, hc, segTail_html, h5]
      simp
    | cons c2 cs2 =>
      have ih2 := ih (by simp) fun x hx => hall x (List.mem_cons_of_mem _ hx)
      show segTail (c :: ((c2 :: cs2) ++ ".html".data)) = some (c :: c2 :: cs2)
      rw [segTail_cons, hc, ih2]
      simp

lemma starts_jobs_cons_false (c : Char) (hc : c ≠ '/') (X : List Char) :
    startsWithL "/jobs/".data (c :: X) = false := by
  show startsWithL ('/' :: 'j' :: 'o' :: 'b' :: 's' :: '/' :: ([] : List Char))
    (c :: X) = false
  have h2 : ('/' : Char) ≠ c := Ne.symm hc
  simp [startsWithL, h2]

lemma jobsMatch_skip_noslash : ∀ l : List Char, (∀ c ∈ l, c ≠ '/') →
    ∀ tail : List Char, jobsMatch (l ++ tail) = jobsMatch tail := by
  intro l
  induction l with
  | nil => intro _ tail; rfl
  | cons c l' ih =>
    intro hl tail
    have hs := starts_jobs_cons_false c (hl c (List.mem_cons_self _ _)) (l' ++ tail)
    show jobsMatch (c :: (l' ++ tail)) = jobsMatch tail
    rw [jobsMatch_cons, hs]
    simp only [Bool.false_eq_true, if_false]
    exact ih (fun x hx => hl x (List.mem_cons_of_mem _ hx)) tail

lemma starts_jobs5_false : ∀ host : List Char, (∀ c ∈ host, c ≠ '/') →
    host ≠ "jobs".data → ∀ rest : List Char,
    startsWithL "jobs/".data (host ++ '/' :: rest) = false := by
  intro host hns hne rest
  show startsWithL ('j' :: 'o' :: 'b' :: 's' :: '/' :: ([] : List Char))
    (host ++ '/' :: rest) = false
  rcases host with _ | ⟨c1, (_ | ⟨c2, (_ | ⟨c3, (_ | ⟨c4, (_ | ⟨c5, h6⟩)⟩)⟩)⟩)⟩
  · simp [startsWithL]
  · simp [startsWithL]
  · simp [startsWithL]
  · simp [startsWithL]
  · rw [Bool.eq_false_iff]
    intro htrue
    simp only [List.cons_append, List.nil_append, startsWithL, Bool.and_eq_true,
      decide_eq_true_eq] at htrue
    obtain ⟨h1, h2, h3, h4, _⟩ := htrue
    subst h1
    subst h2
    subst h3
    subst h4
    exact hne rfl
  · have h5 : ('/' : Char) ≠ c5 := Ne.symm (hns c5 (by simp))
    simp [startsWithL, h5]

lemma jobsMatch_at_jobs (X t : List Char) (h : segTail X = some t) :
    jobsMatch ("/jobs/".data ++ X) = some t := by
  have heq : jobsMatch ("/jobs/".data ++ X) =
      (if startsWithL "/jobs/".data ("/jobs/".data ++ X) then
        (match segTail X with
         | some u => some u
         | none => jobsMatch ("jobs/".data ++ X))
      else jobsMatch ("jobs/".data ++ X)) := rfl
  rw [heq, startsWithL_self, h]
  simp

lemma jobsMatch_none_of_not_contains : ∀ l : List Char,
    containsSub "/jobs/".data l = false → jobsMatch l = none := by
  intro l
  induction l with
  | nil => intro _; rfl
  | cons c rest ih =>
    intro h
    rw [containsSub_cons] at h
    have h1 : startsWithL "/jobs/".data (c :: rest) = false ∧
        containsSub "/jobs/".data rest = false := by
      revert h
      cases startsWithL "/jobs/".data (c :: rest) <;>
        cases containsSub "/jobs/".data rest <;> simp
    rw [jobsMatch_cons, h1.1]
    simp only [Bool.false_eq_true, if_false]
    exact ih h1.2

lemma rstripSlash_eq_self (l : List Char) (c : Char) (hl : l.getLast? = some c)
    (hc : c ≠ '/') : rstripSlash l = l := by
  unfold rstripSlash
  have hh : l.reverse.head? = some c := by rw [List.head?_reverse, hl]
  cases hr : l.reverse with
  | nil => rw [hr] at hh; cases hh
  | cons a as =>
    rw [hr] at hh
    have ha : a = c := Option.some_inj.mp hh
    subst ha
    rw [List.dropWhile_cons_of_neg (by simpa using hc), ← hr,
      List.reverse_reverse]

lemma splitChar_ne_nil (sep : Char) : ∀ l, splitChar sep l ≠ [] := by
  intro l
  cases l with
  | nil => simp [splitChar]
  | cons c cs =>
    simp only [splitChar]
    cases splitChar sep cs with
    | nil => simp
    | cons g gs => by_cases h : c = sep <;> simp [h]

lemma splitChar_no_sep (sep : Char) : ∀ l, sep ∉ l → splitChar sep l = [l] := by
  intro l
  induction l with
  | nil => intro _; rfl
  | cons c cs ih =>
    intro h
    have hc : ¬c = sep := fun e => h (by rw [← e]; exact List.mem_cons_self _ _)
    have hcs : sep ∉ cs := fun hm => h (List.mem_cons_of_mem _ hm)
    simp only [splitChar, ih hcs]
    simp [hc]

lemma splitChar_len2 (sep : Char) : ∀ l, sep ∈ l →
    2 ≤ (splitChar sep l).length := by
  intro l
  induction l with
  | nil => intro h; simp at h
  | cons c cs ih =>
    intro h
    simp only [splitChar]
    cases hsp : splitChar sep cs with
    | nil => exact absurd hsp (splitChar_ne_nil sep cs)
    | cons g gs =>
      by_cases hc : c = sep
      · simp [hc]
      · have hm : sep ∈ cs := by
          rcases List.mem_cons.mp h with e | e
          · exact absurd e.symm hc
          · exact e
        have h2 := ih hm
        rw [hsp] at h2
        simp only [List.length_cons] at h2 ⊢
        simp [hc]
        omega

lemma getLast?_splitChar_append (sep : Char) (q : List Char) :
    ∀ p, (splitChar sep (p ++ sep :: q)).getLast? =
      (splitChar sep q).getLast? := by
  intro p
  induction p with
  | nil =>
    simp only [List.nil_append, splitChar]
    cases hsp : splitChar sep q with
    | nil => exact absurd hsp (splitChar_ne_nil sep q)
    | cons g gs => simp
  | cons c p' ih =>
    show (splitChar sep (c :: (p' ++ sep :: q))).getLast? = _
    simp only [splitChar]
    cases hsp : splitChar sep (p' ++ sep :: q) with
    | nil => exact absurd hsp (splitChar_ne_nil _ _)
    | cons g gs =>
      have hlen := splitChar_len2 sep (p' ++ sep :: q) (by simp)
      rw [hsp] at hlen
      cases gs with
      | nil => simp at hlen
      | cons g2 gs2 =>
        by_cases hc : c = sep
        · show ((if c = sep then [] :: g :: g2 :: gs2
              else (c :: g) :: g2 :: gs2)).getLast? = (splitChar sep q).getLast?
          rw [if_pos hc, List.getLast?_cons_cons, ← hsp]
          exact ih
        · show ((if c = sep then [] :: g :: g2 :: gs2
              else (c :: g) :: g2 :: gs2)).getLast? = (splitChar sep q).getLast?
          rw [if_neg hc, List.getLast?_cons_cons,
            ← @List.getLast?_cons_cons _ g g2 gs2, ← hsp]
          exact ih

/-! ### Claims -/

/-- C1 (code bug evidence): when every HTTP attempt of the listing-page
fetch fails, the retry wrapper performs exactly 3 attempts and re-raises
the HTTP-layer error, and the route surfaces it as
`scrape_failed` / 500 — not as `source_unreachable` / 503 as the claim
states: `ScrapeError`, the only exception mapped to 503, is never raised
by the code. -/
theorem listingFetchFailureSurfaces500 :
    getText (fun _ => FetchOutcome.httpFail) = (Except.error PyError.httpError, 3) ∧
      getJobsListingResult (fun _ => FetchOutcome.httpFail) =
        Except.error (500, "scrape_failed") ∧
      surfaceError PyError.httpError ≠ (503, "source_unreachable") :=
  ⟨rfl, rfl, by decide⟩

/-- C2: `list_with_details` keeps exactly one record per successful url,
in the original url order — per-url failures are dropped without
affecting the rest; in the three-url scenario where the second fetch
fails after retries, exactly the first and third records remain, in that
order. -/
theorem listWithDetailsDropsOnlyFailures :
    (∀ (urls : List String) (g : String → Except PyError JobRecord),
        listWithDetailsData urls g = urls.filterMap (fun u => okPart (g u))) ∧
      listWithDetailsData ["u1", "u2", "u3"] sampleFetch =
        [sampleRecord "u1", sampleRecord "u3"] := by
  constructor
  · intro urls g
    rw [listWithDetailsData, collectOk_eq_filterMap, List.filterMap_map]
    rfl
  · rfl

lemma append_ne_self (p h : String) (hp : p.data ≠ []) : p ++ h ≠ h := by
  intro e
  have hd : p.data ++ h.data = h.data := congrArg String.data e
  have hlen := congrArg List.length hd
  simp only [List.length_append] at hlen
  exact hp (List.eq_nil_of_length_eq_zero (by omega))

/-- C5 counterexample: `resolveUrl` does not return every scheme-bearing
href unchanged (an `ftp` url gets the listing path prepended), and it
does return unchanged some hrefs that have no scheme at all (anything
starting with the four letters `http`). -/
theorem resolveUrlSchemeCounterexample :
    specHasScheme "ftp://cdn.example/f.html" = true ∧
      fullUrl "ftp://cdn.example/f.html" ≠ "ftp://cdn.example/f.html" ∧
      specHasScheme "httpish" = false ∧ fullUrl "httpish" = "httpish" :=
  ⟨by decide, by decide, by decide, by decide⟩

/-- C5 amended: `resolveUrl` returns the href unchanged exactly when it
starts with the literal prefix `http` (not: exactly when it has a
scheme); an href starting with `/` gets the source site's root origin
prepended, anything else gets the listing path (`JOBS_BASE`)
prepended. -/
theorem resolveUrlPrefixRules (href : String) :
    (fullUrl href = href ↔ startsWithL "http".data href.data = true) ∧
      (startsWithL "http".data href.data = false →
        startsWithL "/".data href.data = true →
        fullUrl href = "https://www.awwwards.com" ++ href) ∧
      (startsWithL "http".data href.data = false →
        startsWithL "/".data href.data = false →
        fullUrl href = jobsBase ++ href) := by
  have hroot : ∀ h : String, ("https://www.awwwards.com" ++ h) ≠ h :=
    fun h => append_ne_self _ h (by decide)
  have hbase : ∀ h : String, (jobsBase ++ h) ≠ h :=
    fun h => append_ne_self _ h (by decide)
  cases hh : startsWithL "http".data href.data with
  | true => simp [fullUrl, hh]
  | false =>
    cases hs : startsWithL "/".data href.data with
    | true => simp [fullUrl, hh, hs, hroot href]
    | false => simp [fullUrl, hh, hs, hbase href]

/-- C5 witness: the root-relative branch at a concrete href. -/
theorem resolveUrlPrefixRulesWitness :
    fullUrl "/jobs/foo.html" = "https://www.awwwards.com" ++ "/jobs/foo.html" :=
  (resolveUrlPrefixRules "/jobs/foo.html").2.1 (by decide) (by decide)

/-- C7 counterexample: when the pagination scan does find a next-page
anchor but its href attribute is the empty string (falsy in Python),
`list_page` reports `has_next = false` and `next_page = null` — not
`next_page = currentPage + 1` as the claim requires for a found anchor
whose href lacks a `page=N` parameter. -/
theorem nextPageAnchorCounterexample :
    pageSearch ("" : String).data = none ∧
      listPageNext (some (some "")) 1 = (false, none) ∧
      (listPageNext (some (some "")) 1).2 ≠ some 2 :=
  ⟨rfl, by decide, by decide⟩

/-- C7 amended: `nextPage` is null whenever `hasNext` is false; when a
next-page anchor with a non-empty href is found, `hasNext` is true and
`nextPage` is the `page=N` read from the href, defaulting to
`currentPage + 1`; when there is no anchor, or the anchor has no href
attribute or an empty one, both degrade (`hasNext = false`,
`nextPage = null`). -/
theorem listPageNextRules (a : Option (Option String)) (page : Nat) :
    ((listPageNext a page).1 = false → (listPageNext a page).2 = none) ∧
      (∀ h : String, a = some (some h) → h ≠ "" →
        listPageNext a page = (true, some ((pageSearch h.data).getD (page + 1)))) ∧
      ((a = none ∨ a = some none ∨ a = some (some "")) →
        listPageNext a page = (false, none)) := by
  rcases a with _ | ⟨_ | h⟩
  · refine ⟨fun _ => rfl, ?_, fun _ => rfl⟩
    intro h e
    cases e
  · refine ⟨fun _ => rfl, ?_, fun _ => rfl⟩
    intro h e
    cases e
  · by_cases he : h = ""
    · subst he
      refine ⟨fun _ => by simp [listPageNext], ?_, fun _ => by simp [listPageNext]⟩
      intro h' e hne
      cases e
      exact absurd rfl hne
    · refine ⟨?_, ?_, ?_⟩
      · intro hf
        simp [listPageNext, he] at hf
      · intro h' e hne
        cases e
        simp [listPageNext, he]
      · intro hcase
        rcases hcase with e | e | e
        · cases e
        · cases e
        · rw [Option.some_inj, Option.some_inj] at e
          exact absurd e he

/-- C7 witness: a found anchor carrying a page parameter. -/
theorem listPageNextRulesWitness :
    listPageNext (some (some "?page=7")) 1 = (true, some 7) := by
  rw [(listPageNextRules (some (some "?page=7")) 1).2.1 "?page=7" rfl (by decide)]
  decide

/-- C8 counterexample: `datePosted` is run through `_clean_text` before
`_norm_date`, so a value that does not start with `YYYY-MM-DD` is not
passed through unchanged — its whitespace is collapsed.  Here the
double space of the raw value becomes a single space. -/
theorem datePostedPassThroughCounterexample :
    (jobDetails id { emptyLd with datePosted := some "May  1, 2024" } emptyPage
          "u").posted_at = some "May 1, 2024" ∧
      some "May 1, 2024" ≠ some "May  1, 2024" ∧
      matchesLeadingDate "May  1, 2024".data = false :=
  ⟨by decide, by decide, by decide⟩

/-- C8 amended: `postedAt` is the cleaned (`_clean_text`) `datePosted`
truncated to its leading `YYYY-MM-DD` component when the cleaned value
starts with one, and otherwise the cleaned value itself (null when the
cleaning yields nothing); in particular `"Designer"` /
`"2024-05-01T10:00:00Z"` structured data gives `title = "Designer"` and
`postedAt = "2024-05-01"`. -/
theorem postedAtNormalizesCleanedDate :
    (∀ (f : String → String) (ld : LdJob) (pg : DetailPage) (u : String)
        (c : String), cleanText ld.datePosted = some c →
        ((matchesLeadingDate c.data = true →
            (jobDetails f ld pg u).posted_at = some (String.mk (c.data.take 10))) ∧
          (matchesLeadingDate c.data = false →
            (jobDetails f ld pg u).posted_at = some c))) ∧
      (∀ (f : String → String) (ld : LdJob) (pg : DetailPage) (u : String),
        cleanText ld.datePosted = none → (jobDetails f ld pg u).posted_at = none) ∧
      (jobDetails id
            { emptyLd with
              title := some "Designer"
              datePosted := some "2024-05-01T10:00:00Z" } emptyPage "u").title =
        "Designer" ∧
      (jobDetails id
            { emptyLd with
              title := some "Designer"
              datePosted := some "2024-05-01T10:00:00Z" } emptyPage "u").posted_at =
        some "2024-05-01" := by
  refine ⟨?_, ?_, by decide, by decide⟩
  · intro f ld pg u c hc
    have hpa : (jobDetails f ld pg u).posted_at = normDate (cleanText ld.datePosted) :=
      rfl
    have hcne : c ≠ "" := by
      intro e
      exact cleanText_not_empty ld.datePosted (by rw [hc, e])
    rw [hpa, hc]
    simp only [normDate]
    rw [if_neg hcne]
    constructor
    · intro hm
      rw [if_pos hm]
    · intro hm
      rw [if_neg (by simp [hm])]
  · intro f ld pg u hc
    have hpa : (jobDetails f ld pg u).posted_at = normDate (cleanText ld.datePosted) :=
      rfl
    rw [hpa, hc]
    rfl

/-- C8 witness: the amended normalization at the concrete ISO date. -/
theorem postedAtNormalizesCleanedDateWitness :
    (jobDetails id { emptyLd with datePosted := some "2024-05-01T10:00:00Z" }
        emptyPage "u").posted_at = some "2024-05-01" := by
  rw [(postedAtNormalizesCleanedDate.1 id
        { emptyLd with datePosted := some "2024-05-01T10:00:00Z" } emptyPage "u"
        "2024-05-01T10:00:00Z" (by decide)).1 (by decide)]
  decide

lemma head_collapseGo_true :
    ∀ (cs : List Char) (c : Char),
      (collapseGo true cs).head? = some c → isWs c = false := by
  intro cs
  induction cs with
  | nil => intro c h; simp [collapseGo] at h
  | cons d ds ih =>
    intro c h
    by_cases hd : isWs d = true
    · rw [show collapseGo true (d :: ds) = collapseGo true ds by simp [collapseGo, hd]] at h
      exact ih c h
    · rw [show collapseGo true (d :: ds) = d :: collapseGo false ds by
        simp [collapseGo, hd]] at h
      simp only [List.head?_cons, Option.some_inj] at h
      subst h
      simpa using hd

lemma noWsRunB_cons (c : Char) (X : List Char) (hX : noWsRunB X = true)
    (hhead : isWs c = false ∨ ∀ x, X.head? = some x → isWs x = false) :
    noWsRunB (c :: X) = true := by
  cases X with
  | nil => rfl
  | cons x xs =>
    have hx : (!(isWs c && isWs x)) = true := by
      rcases hhead with h | h
      · simp [h]
      · simp [h x rfl]
    simp only [noWsRunB, Bool.and_eq_true]
    exact ⟨hx, hX⟩

lemma noWsRunB_tail (c : Char) (X : List Char) (h : noWsRunB (c :: X) = true) :
    noWsRunB X = true := by
  cases X with
  | nil => rfl
  | cons x xs =>
    simp only [noWsRunB, Bool.and_eq_true] at h
    exact h.2

lemma noWsRunB_collapseGo : ∀ (cs : List Char) (b : Bool),
    noWsRunB (collapseGo b cs) = true := by
  intro cs
  induction cs with
  | nil => intro b; rfl
  | cons c cs ih =>
    intro b
    by_cases hc : isWs c = true
    · cases b with
      | true =>
        rw [show collapseGo true (c :: cs) = collapseGo true cs by simp [collapseGo, hc]]
        exact ih true
      | false =>
        rw [show collapseGo false (c :: cs) = ' ' :: collapseGo true cs by
          simp [collapseGo, hc]]
        exact noWsRunB_cons _ _ (ih true) (Or.inr (head_collapseGo_true cs))
    · have hc' : isWs c = false := by revert hc; cases isWs c <;> simp
      rw [show collapseGo b (c :: cs) = c :: collapseGo false cs by
        simp [collapseGo, hc']]
      exact noWsRunB_cons _ _ (ih false) (Or.inl hc')

lemma noWsRunB_dropWhile (p : Char → Bool) :
    ∀ l : List Char, noWsRunB l = true → noWsRunB (l.dropWhile p) = true := by
  intro l
  induction l with
  | nil => intro h; exact h
  | cons c cs ih =>
    intro h
    by_cases hp : p c = true
    · rw [List.dropWhile_cons_of_pos hp]
      exact ih (noWsRunB_tail c cs h)
    · rw [List.dropWhile_cons_of_neg (by simpa using hp)]
      exact h

lemma head_dropEndWs (l : List Char) (x : Char)
    (h : (dropEndWs l).head? = some x) : l.head? = some x := by
  cases l with
  | nil => simp [dropEndWs] at h
  | cons c cs =>
    rw [dropEndWs] at h
    cases hd : dropEndWs cs with
    | nil =>
      rw [hd] at h
      by_cases hc : isWs c = true
      · simp [hc] at h
      · have hc' : isWs c = false := by revert hc; cases isWs c <;> simp
        simp only [hc', Bool.false_eq_true, if_false, List.head?_cons,
          Option.some_inj] at h
        simp [h]
    | cons y ys =>
      rw [hd] at h
      simp only [List.head?_cons, Option.some_inj] at h
      simp [h]

lemma head_dropWhile_ws (l : List Char) (x : Char)
    (h : (l.dropWhile isWs).head? = some x) : isWs x = false := by
  induction l with
  | nil => simp [List.dropWhile] at h
  | cons c cs ih =>
    by_cases hc : isWs c = true
    · rw [List.dropWhile_cons_of_pos hc] at h
      exact ih h
    · rw [List.dropWhile_cons_of_neg (by simpa using hc)] at h
      simp only [List.head?_cons, Option.some_inj] at h
      rw [← h]
      revert hc
      cases isWs c <;> simp

lemma noWsRunB_dropEndWs : ∀ l : List Char,
    noWsRunB l = true → noWsRunB (dropEndWs l) = true := by
  intro l
  induction l with
  | nil => intro h; exact h
  | cons c cs ih =>
    intro h
    rw [dropEndWs]
    cases hd : dropEndWs cs with
    | nil =>
      by_cases hc : isWs c = true <;> simp [hc, noWsRunB]
    | cons y ys =>
      have htail : noWsRunB (y :: ys) = true := by
        rw [← hd]
        exact ih (noWsRunB_tail c cs h)
      have hcy : cs.head? = some y := head_dropEndWs cs y (by rw [hd]; rfl)
      cases cs with
      | nil => simp at hcy
      | cons d ds =>
        simp only [List.head?_cons, Option.some_inj] at hcy
        subst hcy
        simp only [noWsRunB, Bool.and_eq_true] at h ⊢
        exact ⟨h.1, htail⟩

lemma getLast_dropEndWs_not_ws : ∀ (l : List Char) (x : Char),
    (dropEndWs l).getLast? = some x → isWs x = false := by
  intro l
  induction l with
  | nil => intro x h; simp [dropEndWs] at h
  | cons c cs ih =>
    intro x h
    rw [dropEndWs] at h
    cases hd : dropEndWs cs with
    | nil =>
      rw [hd] at h
      by_cases hc : isWs c = true
      · simp [hc] at h
      · have hc' : isWs c = false := by revert hc; cases isWs c <;> simp
        simp only [hc', Bool.false_eq_true, if_false, List.getLast?_singleton,
          Option.some_inj] at h
        subst h
        exact hc'
    | cons y ys =>
      rw [hd] at h
      rw [List.getLast?_cons_cons] at h
      rw [← hd] at h
      exact ih x h

lemma noEdgeWsB_pyStripL (l : List Char) : noEdgeWsB (pyStripL l) = true := by
  have hh : (match (pyStripL l).head? with
      | some c => !isWs c
      | none => true) = true := by
    cases hh : (pyStripL l).head? with
    | none => rfl
    | some x =>
      have h1 : (l.dropWhile isWs).head? = some x := head_dropEndWs _ x hh
      simp [head_dropWhile_ws l x h1]
  have hl : (match (pyStripL l).getLast? with
      | some c => !isWs c
      | none => true) = true := by
    cases hl : (pyStripL l).getLast? with
    | none => rfl
    | some x => simp [getLast_dropEndWs_not_ws _ x hl]
  rw [noEdgeWsB, hh, hl]
  rfl

lemma cleanO_cleanText (x : Option String) : cleanO (cleanText x) := by
  intro s' e
  cases x with
  | none => simp [cleanText] at e
  | some s =>
    simp only [cleanText] at e
    by_cases ht : String.mk (pyStripL (collapseWs s.data)) = ""
    · rw [if_pos ht] at e
      cases e
    · rw [if_neg ht] at e
      have hs' : s' = String.mk (pyStripL (collapseWs s.data)) :=
        (Option.some_inj.mp e).symm
      subst hs'
      refine ⟨ht, ?_, noEdgeWsB_pyStripL _⟩
      show noWsRunB (pyStripL (collapseWs s.data)) = true
      exact noWsRunB_dropEndWs _
        (noWsRunB_dropWhile _ _ (noWsRunB_collapseGo s.data false))

lemma collapseGo_true_allWs :
    ∀ cs : List Char, allWsB cs = true → collapseGo true cs = [] := by
  intro cs
  induction cs with
  | nil => intro _; rfl
  | cons c cs ih =>
    intro h
    simp only [allWsB, List.all_cons, Bool.and_eq_true] at h
    simp only [collapseGo, h.1, if_true]
    exact ih h.2

lemma cleanText_allWs (s : String) (h : allWsB s.data = true) :
    cleanText (some s) = none := by
  simp only [cleanText]
  cases hs : s.data with
  | nil => rfl
  | cons c cs =>
    rw [hs] at h
    simp only [allWsB, List.all_cons, Bool.and_eq_true] at h
    have hcw : collapseWs (c :: cs) = [' '] := by
      simp [collapseWs, collapseGo, h.1, collapseGo_true_allWs cs h.2]
    rw [hcw]
    rfl

lemma digit_not_ws (c : Char) (h : c.isDigit = true) : isWs c = false := by
  cases hw : isWs c
  · rfl
  · exfalso
    simp only [isWs, Bool.or_eq_true, decide_eq_true_eq] at hw
    rcases hw with ((((h1 | h1) | h1) | h1) | h1) | h1 <;> subst h1 <;>
      exact absurd h (by decide)

lemma matches_date_chars (l : List Char) (h : matchesLeadingDate l = true) :
    ∀ c ∈ l.take 10, isWs c = false := by
  rcases l with _ | ⟨y1, (_ | ⟨y2, (_ | ⟨y3, (_ | ⟨y4, (_ | ⟨a1, (_ | ⟨m1,
    (_ | ⟨m2, (_ | ⟨a2, (_ | ⟨d1, (_ | ⟨d2, rest⟩)⟩)⟩)⟩)⟩)⟩)⟩)⟩)⟩)⟩ <;>
    first
      | exact Bool.noConfusion h
      | skip
  simp only [matchesLeadingDate, Bool.and_eq_true, decide_eq_true_eq] at h
  obtain ⟨⟨⟨⟨⟨⟨⟨⟨⟨h1, h2⟩, h3⟩, h4⟩, h5⟩, h6⟩, h7⟩, h8⟩, h9⟩, h10⟩ := h
  intro c hc
  have ht : (y1 :: y2 :: y3 :: y4 :: a1 :: m1 :: m2 :: a2 :: d1 :: d2 ::
      rest).take 10 = [y1, y2, y3, y4, a1, m1, m2, a2, d1, d2] := rfl
  rw [ht] at hc
  simp only [List.mem_cons, List.not_mem_nil, or_false] at hc
  rcases hc with e | e | e | e | e | e | e | e | e | e <;> subst e
  · exact digit_not_ws _ h1
  · exact digit_not_ws _ h2
  · exact digit_not_ws _ h3
  · exact digit_not_ws _ h4
  · rw [h5]; rfl
  · exact digit_not_ws _ h6
  · exact digit_not_ws _ h7
  · rw [h8]; rfl
  · exact digit_not_ws _ h9
  · exact digit_not_ws _ h10

lemma noWsRunB_of_all (l : List Char) (h : ∀ c ∈ l, isWs c = false) :
    noWsRunB l = true := by
  induction l with
  | nil => rfl
  | cons a t ih =>
    cases t with
    | nil => rfl
    | cons b r =>
      simp only [noWsRunB, Bool.and_eq_true]
      constructor
      · simp [h a (by simp), h b (by simp)]
      · exact ih fun c hc => h c (List.mem_cons_of_mem _ hc)

lemma noEdgeWsB_of_all (l : List Char) (h : ∀ c ∈ l, isWs c = false) :
    noEdgeWsB l = true := by
  have hh : (match l.head? with
      | some c => !isWs c
      | none => true) = true := by
    cases hh : l.head? with
    | none => rfl
    | some x =>
      have hx : x ∈ l := by
        cases l with
        | nil => simp at hh
        | cons a t =>
          simp only [List.head?_cons, Option.some_inj] at hh
          rw [← hh]
          exact List.mem_cons_self _ _
      simp [h x hx]
  have hl : (match l.getLast? with
      | some c => !isWs c
      | none => true) = true := by
    cases hl : l.getLast? with
    | none => rfl
    | some x =>
      have hx : x ∈ l := List.mem_of_mem_getLast? hl
      simp [h x hx]
  rw [noEdgeWsB, hh, hl]
  rfl

lemma cleanO_normDate_clean (d : Option String) :
    cleanO (normDate (cleanText d)) := by
  intro s' e
  cases hct : cleanText d with
  | none => rw [hct] at e; cases e
  | some c =>
    have hc := cleanO_cleanText d c hct
    rw [hct] at e
    simp only [normDate] at e
    rw [if_neg hc.1] at e
    by_cases hm : matchesLeadingDate c.data = true
    · rw [if_pos hm] at e
      have hs' : s' = String.mk (c.data.take 10) := (Option.some_inj.mp e).symm
      subst hs'
      have hchars := matches_date_chars c.data hm
      refine ⟨?_, noWsRunB_of_all _ hchars, noEdgeWsB_of_all _ hchars⟩
      intro he
      have hnil : c.data.take 10 = [] := congrArg String.data he
      rcases hd : c.data with _ | ⟨a, t⟩
      · rw [hd] at hm; simp [matchesLeadingDate] at hm
      · rw [hd] at hnil; simp at hnil
    · rw [if_neg hm] at e
      have hs' : s' = c := (Option.some_inj.mp e).symm
      subst hs'
      exact hc

lemma cleanO_pyOrS (a b : Option String) (ha : cleanO a) (hb : cleanO b) :
    cleanO (pyOrS a b) := by
  intro s' e
  cases a with
  | none => exact hb s' e
  | some s =>
    simp only [pyOrS] at e
    by_cases hs : s = ""
    · rw [if_pos hs] at e
      exact hb s' e
    · rw [if_neg hs] at e
      exact ha s' e

lemma jd_company_name (f : String → String) (ld : LdJob) (pg : DetailPage)
    (u : String) : (jobDetails f ld pg u).company_name = cleanText ld.orgName := rfl

lemma jd_company_website (f : String → String) (ld : LdJob) (pg : DetailPage)
    (u : String) : (jobDetails f ld pg u).company_website =
      cleanText (pyOrS ld.orgSameAs ld.orgUrl) := rfl

lemma jd_category (f : String → String) (ld : LdJob) (pg : DetailPage)
    (u : String) : (jobDetails f ld pg u).category =
      cleanText ld.occupationalCategory := rfl

lemma jd_country (f : String → String) (ld : LdJob) (pg : DetailPage)
    (u : String) : (jobDetails f ld pg u).country = cleanText ld.locCountry := rfl

lemma jd_employment_type (f : String → String) (ld : LdJob) (pg : DetailPage)
    (u : String) : (jobDetails f ld pg u).employment_type =
      cleanText ld.employmentType := rfl

lemma jd_location_label (f : String → String) (ld : LdJob) (pg : DetailPage)
    (u : String) : (jobDetails f ld pg u).location_label =
      pyOrS (cleanText ld.locCity) (cleanText ld.locName) := rfl

lemma jd_posted_at (f : String → String) (ld : LdJob) (pg : DetailPage)
    (u : String) : (jobDetails f ld pg u).posted_at =
      normDate (cleanText ld.datePosted) := rfl

lemma jd_title (f : String → String) (ld : LdJob) (pg : DetailPage)
    (u : String) : (jobDetails f ld pg u).title =
      pyGetD (pyOrS (cleanText ld.title) (cleanText pg.h1Text)) "" := rfl

lemma jd_apply_url (f : String → String) (ld : LdJob) (pg : DetailPage)
    (u : String) : (jobDetails f ld pg u).apply_url =
      (match cleanText (pyOrS ld.orgUrl (pyOrS ld.applicationContact ld.url)) with
       | some a => some a
       | none =>
         match pg.moreInfoHref with
         | some h => if h = "" then none else some (fullUrl h)
         | none => none) := rfl

lemma jd_description_html (f : String → String) (ld : LdJob) (pg : DetailPage)
    (u : String) : (jobDetails f ld pg u).description_html =
      (match ld.description with
       | none => none
       | some s => if s = "" then some s else some (pyStrip s)) := rfl

lemma jd_description_text (f : String → String) (ld : LdJob) (pg : DetailPage)
    (u : String) : (jobDetails f ld pg u).description_text =
      (match (match ld.description with
              | none => none
              | some s => if s = "" then some s else some (pyStrip s) :
              Option String) with
       | some s => if s = "" then articleFallback pg else some (pyStrip (f s))
       | none => articleFallback pg) := rfl

lemma noEdge_articleFallback (pg : DetailPage) (s' : String)
    (e : articleFallback pg = some s') : noEdgeWsB s'.data = true := by
  unfold articleFallback at e
  cases hA : pg.articleText with
  | none =>
    rw [hA] at e
    exact Option.noConfusion e
  | some a =>
    rw [hA] at e
    have e3 : pyStrip a = s' := Option.some_inj.mp e
    rw [← e3]
    exact noEdgeWsB_pyStripL a.data

lemma dedupeGo_eq_keepFirst :
    ∀ (l seen : List String),
      dedupeGo l seen = keepFirst (l.filter (fun v => decide (v ∉ seen))) := by
  intro l
  induction l with
  | nil => intro seen; simp [dedupeGo, keepFirst]
  | cons u us ih =>
    intro seen
    by_cases h : u ∈ seen
    · rw [List.filter_cons]
      show (if u ∈ seen then dedupeGo us seen else u :: dedupeGo us (u :: seen)) = _
      rw [if_pos h]
      simp only [h, not_true_eq_false, decide_False, Bool.false_eq_true, if_false]
      exact ih seen
    · rw [List.filter_cons]
      show (if u ∈ seen then dedupeGo us seen else u :: dedupeGo us (u :: seen)) = _
      rw [if_neg h]
      simp only [h, not_false_eq_true, decide_True, if_true]
      rw [keepFirst, ih (u :: seen), List.filter_filter]
      congr 1
      congr 1
      apply List.filter_congr
      intro v _
      simp [List.mem_cons, not_or]

lemma mem_keepFirst_le :
    ∀ (n : Nat) (l : List String), l.length ≤ n → ∀ v, v ∈ keepFirst l → v ∈ l := by
  intro n
  induction n with
  | zero =>
    intro l hl v hv
    have : l = [] := List.eq_nil_of_length_eq_zero (Nat.le_zero.mp hl)
    subst this
    simp [keepFirst] at hv
  | succ n ih =>
    intro l hl v hv
    cases l with
    | nil => simp [keepFirst] at hv
    | cons u us =>
      rw [keepFirst] at hv
      rcases List.mem_cons.mp hv with e | hv2
      · exact e ▸ List.mem_cons_self _ _
      · have hlen : (us.filter (fun v => decide (v ≠ u))).length ≤ n :=
          le_trans (List.length_filter_le _ _)
            (Nat.succ_le_succ_iff.mp (by simpa using hl))
        exact List.mem_cons_of_mem _
          (List.mem_of_mem_filter (ih _ hlen v hv2))

lemma nodup_keepFirst_le :
    ∀ (n : Nat) (l : List String), l.length ≤ n → (keepFirst l).Nodup := by
  intro n
  induction n with
  | zero =>
    intro l hl
    have : l = [] := List.eq_nil_of_length_eq_zero (Nat.le_zero.mp hl)
    subst this
    simp [keepFirst]
  | succ n ih =>
    intro l hl
    cases l with
    | nil => simp [keepFirst]
    | cons u us =>
      rw [keepFirst]
      have hlen : (us.filter (fun v => decide (v ≠ u))).length ≤ n :=
        le_trans (List.length_filter_le _ _)
          (Nat.succ_le_succ_iff.mp (by simpa using hl))
      refine List.Nodup.cons ?_ (ih _ hlen)
      intro hmem
      have := mem_keepFirst_le n _ hlen u hmem
      have := (List.mem_filter.mp this).2
      simp at this

/-- C6: the job urls extracted from a listing page carry no duplicate:
the de-duplication loop keeps exactly the first occurrence of each
resolved url, in first-seen order (`keepFirst` deletes every later
duplicate from the occurrence sequence), and the result is duplicate
free. -/
theorem extractedUrlsNodupFirstSeen (hrefs : List String) :
    extractJobUrls hrefs = keepFirst (occurrencesOf hrefs) ∧
      (extractJobUrls hrefs).Nodup := by
  have h1 : extractJobUrls hrefs = keepFirst (occurrencesOf hrefs) := by
    rw [extractJobUrls, dedupeGo_eq_keepFirst]
    congr 1
    have : ∀ l : List String, l.filter (fun v => decide (v ∉ ([] : List String))) = l := by
      intro l
      induction l with
      | nil => rfl
      | cons a as ihl => simp [List.filter_cons, ihl]
    exact this _
  exact ⟨h1, h1 ▸ nodup_keepFirst_le (occurrencesOf hrefs).length _ le_rfl⟩

lemma listLe_total : ∀ a b : List Char, listLe a b = true ∨ listLe b a = true := by
  intro a
  induction a with
  | nil => intro b; left; rfl
  | cons x xs ih =>
    intro b
    cases b with
    | nil => right; rfl
    | cons y ys =>
      by_cases hxy : x = y
      · subst hxy
        rcases ih ys with h | h
        · left; simpa [listLe] using h
        · right; simpa [listLe] using h
      · rcases lt_trichotomy x y with h | h | h
        · left; simp [listLe, hxy, h]
        · exact absurd h hxy
        · right; simp [listLe, Ne.symm hxy, h]

lemma listLe_trans :
    ∀ a b c : List Char, listLe a b = true → listLe b c = true →
      listLe a c = true := by
  intro a
  induction a with
  | nil => intro b c _ _; rfl
  | cons x xs ih =>
    intro b c hab hbc
    cases b with
    | nil => simp [listLe] at hab
    | cons y ys =>
      cases c with
      | nil => simp [listLe] at hbc
      | cons z zs =>
        by_cases hxy : x = y <;> by_cases hyz : y = z
        · subst hxy; subst hyz
          simp only [listLe, if_pos rfl] at hab hbc ⊢
          exact ih ys zs hab hbc
        · subst hxy
          simp only [listLe, if_pos rfl, if_neg hyz, decide_eq_true_eq] at hbc ⊢
          simp [listLe, hyz, hbc]
        · subst hyz
          simp only [listLe, if_neg hxy, decide_eq_true_eq] at hab
          simp [listLe, hxy, hab]
        · simp only [listLe, if_neg hxy, decide_eq_true_eq] at hab
          simp only [listLe, if_neg hyz, decide_eq_true_eq] at hbc
          have hxz := lt_trans hab hbc
          simp [listLe, ne_of_lt hxz, hxz]

lemma listLe_nil_right : ∀ a : List Char, listLe a [] = true → a = [] := by
  intro a h
  cases a with
  | nil => rfl
  | cons x xs => simp [listLe] at h

lemma strLeB_empty_right (s : String) (h : strLeB s "" = true) : s = "" :=
  String.toList_inj.mp (listLe_nil_right s.data h)

instance : IsTotal JobRecord descRel :=
  ⟨fun a b => listLe_total (postedKey b).data (postedKey a).data⟩

instance : IsTrans JobRecord descRel :=
  ⟨fun _ _ _ hab hbc => listLe_trans _ _ _ hbc hab⟩

lemma applySort_desc (data : List JobRecord) :
    applySort (some "-posted_at") data = List.insertionSort descRel data := by
  cases data with
  | nil => rfl
  | cons a l =>
    have h0 : ("-posted_at" : String) ≠ "" := by decide
    have h1 : lstripDash "-posted_at" = "posted_at" := by decide
    have h2 : startsDash "-posted_at" = true := by decide
    simp [applySort, h0, h1, h2]

/-- C9: requesting `sort=-posted_at` permutes the records into an order
that is descending in the `postedAt` key (a missing date counting as the
empty string); since extraction never produces an empty-string date,
every dateless record ends up after every dated one; the concrete
three-record scenario sorts to [2024-03-01, 2024-01-01, null]. -/
theorem sortDescendingPostedAt (data : List JobRecord)
    (hne : ∀ r ∈ data, r.posted_at ≠ some "") :
    (applySort (some "-posted_at") data).Perm data ∧
      List.Sorted descRel (applySort (some "-posted_at") data) ∧
      (applySort (some "-posted_at") data).Pairwise
        (fun a b => a.posted_at = none → b.posted_at = none) ∧
      applySort (some "-posted_at")
          [datedRecord (some "2024-01-01"), datedRecord none,
            datedRecord (some "2024-03-01")] =
        [datedRecord (some "2024-03-01"), datedRecord (some "2024-01-01"),
          datedRecord none] := by
  have hperm : (applySort (some "-posted_at") data).Perm data := by
    rw [applySort_desc]
    exact List.perm_insertionSort _ _
  have hsorted : List.Sorted descRel (applySort (some "-posted_at") data) := by
    rw [applySort_desc]
    exact List.sorted_insertionSort _ _
  refine ⟨hperm, hsorted, ?_, by decide⟩
  refine List.Pairwise.imp_of_mem ?_ hsorted
  intro a b ha hb hr hnone
  have hb' : b ∈ data := hperm.subset hb
  have hkeya : postedKey a = "" := by simp [postedKey, hnone]
  have hr' : strLeB (postedKey b) "" = true := by
    have := hr
    unfold descRel at this
    rwa [hkeya] at this
  have hkeyb : postedKey b = "" := strLeB_empty_right _ hr'
  cases hb2 : b.posted_at with
  | none => rfl
  | some s =>
    have : s = "" := by simpa [postedKey, hb2] using hkeyb
    exact absurd (this ▸ hb2) (hne b hb')

/-- C9 witness: the sorted-descending property at the concrete scenario
list. -/
theorem sortDescendingPostedAtWitness :
    applySort (some "-posted_at")
        [datedRecord (some "2024-01-01"), datedRecord none,
          datedRecord (some "2024-03-01")] =
      [datedRecord (some "2024-03-01"), datedRecord (some "2024-01-01"),
        datedRecord none] :=
  (sortDescendingPostedAt
      [datedRecord (some "2024-01-01"), datedRecord none,
        datedRecord (some "2024-03-01")] (by decide)).2.2.2

/-- C3 counterexample: `descriptionHtml` is stored with only its ends
trimmed — the interior whitespace run of a structured description
survives into the record, where the claim requires every run collapsed
to a single space (`_clean_text` would have produced a different
value). -/
theorem descriptionHtmlNotCleanedCounterexample :
    (jobDetails id { emptyLd with description := some "a  b" } emptyPage
          "u").description_html = some "a  b" ∧
      cleanText (some "a  b") = some "a b" ∧
      noWsRunB ("a  b" : String).data = false :=
  ⟨by decide, by decide, by decide⟩

/-- C3 amended: the cleaning rule (collapse whitespace runs, trim, null
on empty, title defaulting to the empty string) holds for the fields
routed through `_clean_text` — companyName, companyWebsite, category,
country, employmentType, locationLabel, postedAt, the structured-data
applyUrl, and title — but not for the description fields: both
`descriptionHtml` and `descriptionText` are only end-trimmed (interior
runs survive, and an all-whitespace description yields the empty string
rather than null); the anchor-fallback applyUrl is the resolved href
as found. -/
theorem textFieldsCleaned (f : String → String) (ld : LdJob) (pg : DetailPage)
    (u : String) :
    cleanO (jobDetails f ld pg u).company_name ∧
      cleanO (jobDetails f ld pg u).company_website ∧
      cleanO (jobDetails f ld pg u).category ∧
      cleanO (jobDetails f ld pg u).country ∧
      cleanO (jobDetails f ld pg u).employment_type ∧
      cleanO (jobDetails f ld pg u).location_label ∧
      cleanO (jobDetails f ld pg u).posted_at ∧
      (pg.moreInfoHref = none → cleanO (jobDetails f ld pg u).apply_url) ∧
      ((jobDetails f ld pg u).title = "" ∨
        ((jobDetails f ld pg u).title ≠ "" ∧
          noWsRunB (jobDetails f ld pg u).title.data = true ∧
          noEdgeWsB (jobDetails f ld pg u).title.data = true)) ∧
      (∀ s, (jobDetails f ld pg u).description_html = some s →
        noEdgeWsB s.data = true) ∧
      (∀ s, (jobDetails f ld pg u).description_text = some s →
        noEdgeWsB s.data = true) ∧
      (∀ x : String, allWsB x.data = true → cleanText (some x) = none) := by
  refine ⟨?_, ?_, ?_, ?_, ?_, ?_, ?_, ?_, ?_, ?_, ?_, ?_⟩
  · rw [jd_company_name]
    exact cleanO_cleanText _
  · rw [jd_company_website]
    exact cleanO_cleanText _
  · rw [jd_category]
    exact cleanO_cleanText _
  · rw [jd_country]
    exact cleanO_cleanText _
  · rw [jd_employment_type]
    exact cleanO_cleanText _
  · rw [jd_location_label]
    exact cleanO_pyOrS _ _ (cleanO_cleanText _) (cleanO_cleanText _)
  · rw [jd_posted_at]
    exact cleanO_normDate_clean _
  · intro hm
    rw [jd_apply_url, hm]
    intro s' e
    cases hau : cleanText (pyOrS ld.orgUrl (pyOrS ld.applicationContact ld.url)) with
    | some a =>
      rw [hau] at e
      have e2 : some a = some s' := e
      have : a = s' := Option.some_inj.mp e2
      rw [← this]
      exact cleanO_cleanText _ a hau
    | none =>
      rw [hau] at e
      exact Option.noConfusion (e : (none : Option String) = some s')
  · rw [jd_title]
    cases ho : pyOrS (cleanText ld.title) (cleanText pg.h1Text) with
    | none => left; rfl
    | some s =>
      have hp := cleanO_pyOrS _ _ (cleanO_cleanText ld.title)
        (cleanO_cleanText pg.h1Text) s ho
      right
      have hg : pyGetD (some s) "" = s := by simp [pyGetD, hp.1]
      rw [hg]
      exact hp
  · intro s' e
    rw [jd_description_html] at e
    cases hD : ld.description with
    | none =>
      rw [hD] at e
      exact Option.noConfusion (e : (none : Option String) = some s')
    | some s =>
      rw [hD] at e
      have e2 : (if s = "" then some s else some (pyStrip s)) = some s' := e
      by_cases hs : s = ""
      · rw [if_pos hs] at e2
        have : s = s' := Option.some_inj.mp e2
        rw [← this, hs]
        rfl
      · rw [if_neg hs] at e2
        have : pyStrip s = s' := Option.some_inj.mp e2
        rw [← this]
        exact noEdgeWsB_pyStripL s.data
  · intro s' e
    rw [jd_description_text] at e
    cases hD : ld.description with
    | none =>
      rw [hD] at e
      exact noEdge_articleFallback pg s' e
    | some s =>
      rw [hD] at e
      have e2 : (match (if s = "" then some s else some (pyStrip s) :
          Option String) with
        | some t => if t = "" then articleFallback pg else some (pyStrip (f t))
        | none => articleFallback pg) = some s' := e
      by_cases hs : s = ""
      · rw [if_pos hs] at e2
        have e3 : (if s = "" then articleFallback pg
            else some (pyStrip (f s))) = some s' := e2
        rw [if_pos hs] at e3
        exact noEdge_articleFallback pg s' e3
      · rw [if_neg hs] at e2
        have e3 : (if pyStrip s = "" then articleFallback pg
            else some (pyStrip (f (pyStrip s)))) = some s' := e2
        by_cases hps : pyStrip s = ""
        · rw [if_pos hps] at e3
          exact noEdge_articleFallback pg s' e3
        · rw [if_neg hps] at e3
          have : pyStrip (f (pyStrip s)) = s' := Option.some_inj.mp e3
          rw [← this]
          exact noEdgeWsB_pyStripL (f (pyStrip s)).data
  · exact fun x hx => cleanText_allWs x hx

/-- C3 witness: the null-on-all-whitespace part of the amended rule at a
concrete input. -/
theorem textFieldsCleanedWitness : cleanText (some "   ") = none :=
  (textFieldsCleaned id emptyLd emptyPage "u").2.2.2.2.2.2.2.2.2.2.2 "   "
    (by decide)

/-- C4 counterexample: the slug regex requires the `.html` segment to sit
inside a `/jobs/` path; for a url whose path segment precedes `.html`
but without `/jobs/`, the fallback keeps the `.html` suffix —
`"foo.html"`, not the `"foo"` the claim demands for every URL of that
shape. -/
theorem slugFromUrlCounterexample :
    slugFromUrl "https://site/docs/foo.html" = "foo.html" ∧
      ("foo.html" : String) ≠ "foo" :=
  ⟨by decide, by decide⟩

/-- C4 amended: for a url `https://<host>/jobs/<seg>.html` (slash-free
host other than the string jobs, non-empty seg free of `/`, `?`, `#` and
`.`) the slug is `seg`; for a url whose text contains no `/jobs/`
occurrence at all, the slug falls back to the last path segment —
`.html` suffix included — after stripping trailing slashes. -/
theorem slugFromUrlRules :
    (∀ host seg : String,
      (∀ c ∈ host.data, c ≠ '/') → host ≠ "jobs" → seg ≠ "" →
      (∀ c ∈ seg.data, allowedSeg c = true ∧ c ≠ '.') →
      slugFromUrl ("https://" ++ host ++ "/jobs/" ++ seg ++ ".html") = seg) ∧
    (∀ p q : String,
      containsSub "/jobs/".data (p ++ "/" ++ q).data = false →
      q ≠ "" → ('/' : Char) ∉ q.data →
      slugFromUrl (p ++ "/" ++ q) = q) := by
  constructor
  · intro host seg hhost hjobs hseg hsegc
    have hU : ("https://" ++ host ++ "/jobs/" ++ seg ++ ".html").data =
        "https:".data ++ ('/' :: '/' ::
          (host.data ++ ("/jobs/".data ++ (seg.data ++ ".html".data)))) := by
      show ((("https://".data ++ host.data) ++ "/jobs/".data) ++ seg.data) ++
          ".html".data = _
      simp only [List.append_assoc]
      rfl
    have hm : jobsMatch
        (("https://" ++ host ++ "/jobs/" ++ seg ++ ".html").data) =
          some seg.data := by
      rw [hU, jobsMatch_skip_noslash "https:".data (by decide)]
      rw [jobsMatch_cons]
      rw [show startsWithL "/jobs/".data ('/' :: '/' ::
        (host.data ++ ("/jobs/".data ++ (seg.data ++ ".html".data)))) = false
        from rfl]
      simp only [Bool.false_eq_true, if_false]
      rw [jobsMatch_cons]
      have hsj : startsWithL "/jobs/".data ('/' ::
          (host.data ++ ("/jobs/".data ++ (seg.data ++ ".html".data)))) =
            false := by
        show startsWithL ('/' :: "jobs/".data) ('/' ::
          (host.data ++ ("/jobs/".data ++ (seg.data ++ ".html".data)))) = false
        have h1 : startsWithL "jobs/".data (host.data ++
            ('/' :: ("jobs/".data ++ (seg.data ++ ".html".data)))) = false :=
          starts_jobs5_false host.data hhost
            (fun e => hjobs (String.toList_inj.mp e)) _
        simpa [startsWithL] using h1
      rw [hsj]
      simp only [Bool.false_eq_true, if_false]
      rw [jobsMatch_skip_noslash host.data hhost]
      exact jobsMatch_at_jobs _ _
        (segTail_seg seg.data (fun e => hseg (String.toList_inj.mp e)) hsegc)
    show (match jobsMatch
        (("https://" ++ host ++ "/jobs/" ++ seg ++ ".html").data) with
      | some t => String.mk t
      | none => String.mk ((splitChar '/' (rstripSlash
          (("https://" ++ host ++ "/jobs/" ++ seg ++ ".html").data))).getLastD
            [])) = seg
    rw [hm]
  · intro p q hcont hq hnq
    have hU2 : (p ++ "/" ++ q).data = p.data ++ '/' :: q.data := by
      show (p.data ++ "/".data) ++ q.data = _
      simp only [List.append_assoc]
      rfl
    have hm : jobsMatch ((p ++ "/" ++ q).data) = none :=
      jobsMatch_none_of_not_contains _ hcont
    have hqd : q.data ≠ [] := fun e => hq (String.toList_inj.mp e)
    obtain ⟨c, hc⟩ : ∃ c, q.data.getLast? = some c := by
      cases hl : q.data.getLast? with
      | none =>
        exfalso
        cases hql : q.data with
        | nil => exact hqd hql
        | cons a as =>
          rw [hql] at hl
          rw [List.getLast?_eq_none_iff] at hl
          cases hl
      | some c => exact ⟨c, rfl⟩
    have hcm : c ∈ q.data := List.mem_of_mem_getLast? hc
    have hcs : c ≠ '/' := fun e => hnq (e ▸ hcm)
    have hlast : (p.data ++ '/' :: q.data).getLast? = some c := by
      rw [List.getLast?_append]
      rw [show ('/' :: q.data).getLast? = some c from by
        rw [show ('/' :: q.data) = ['/'] ++ q.data from rfl,
          List.getLast?_append, hc]
        rfl]
      rfl
    have hrs : rstripSlash ((p ++ "/" ++ q).data) = p.data ++ '/' :: q.data := by
      rw [hU2]
      exact rstripSlash_eq_self _ c hlast hcs
    show (match jobsMatch ((p ++ "/" ++ q).data) with
      | some t => String.mk t
      | none => String.mk ((splitChar '/'
          (rstripSlash ((p ++ "/" ++ q).data))).getLastD [])) = q
    rw [hm, hrs, List.getLastD_eq_getLast?, getLast?_splitChar_append,
      splitChar_no_sep _ _ hnq]
    rfl

/-- C4 witness: the documented example url resolves to its job slug via
the amended rule. -/
theorem slugFromUrlRulesWitness :
    slugFromUrl ("https://" ++ "site" ++ "/jobs/" ++ "ux-strategist-lewiston" ++
        ".html") = "ux-strategist-lewiston" :=
  slugFromUrlRules.1 "site" "ux-strategist-lewiston" (by decide) (by decide)
    (by decide) (by decide)

/-- C10: the `remote` field produced by detail extraction is `true` or
absent, never `false`; it is `true` exactly when the structured data
declares applicant-location requirements or the location label triggers
one of the two remote heuristics. -/
theorem remoteNeverFalse (htmlToText : String → String) (ld : LdJob)
    (pg : DetailPage) (jobUrl : String) :
    ((jobDetails htmlToText ld pg jobUrl).remote = some true ∨
        (jobDetails htmlToText ld pg jobUrl).remote = none) ∧
      ((jobDetails htmlToText ld pg jobUrl).remote = some true ↔
        (ld.applicantLocationRequirements = true ∨
          llRemoteSub (pyOrS (cleanText ld.locCity) (cleanText ld.locName)) = true ∨
          llRemoteEq (pyOrS (cleanText ld.locCity) (cleanText ld.locName)) = true)) ∧
      (jobDetails htmlToText ld pg jobUrl).remote ≠ some false :=
  remoteOf_spec ld.applicantLocationRequirements
    (pyOrS (cleanText ld.locCity) (cleanText ld.locName))
